import Mathlib

/-!
Verification of the Loop subdivision-surface engine of `source/meshObject.cpp`
(class `meshObject`): one subdivision pass (`applyLoopSubdivision`), the
normal-recomputation pass (`calculateNormals`), and the level controller
(`setSubdivisionLevel`), together with the constructor-time loading of the
base mesh.

Modelling conventions.

* Scalars: the C++ code computes with 32-bit floats; the embedding uses exact
  rationals `ℚ`.  Two float-only primitives are abstracted as parameters:
  `c : ℕ → ℚ` stands for the map `k ↦ cosf(2π/k)` used in the interior vertex
  weight, and `sq : ℚ → ℚ` stands for the square root used by
  `glm::normalize`.  Every theorem quantifies over these parameters, and every
  concrete instantiation that claims to evaluate a square root ships the
  defining equation `sq x * sq x = x` for each radicand it touches.
* `glm::normalize v` computes `v / sqrt(dot v v)`; for `dot v v = 0` the float
  code produces NaN (`0 * inf`).  The embedding returns `Option Vec3`, with
  `none` playing the role of NaN; adding NaN to anything is NaN, so the
  accumulation of face normals propagates `none`.
* `std::map<Edge, _>` iterates its entries in strictly increasing key order of
  the `Edge::operator<` comparator (lexicographic on the `(min,max)`
  normalisation of the endpoint pair); the embedding keeps the key set as a
  sorted duplicate-free list built by ordered insertion (`insEdge`).
  `std::set<unsigned int>` likewise iterates ascending (`insNat`).
* Out-of-range vector indexing is undefined behaviour in C++; the embedding
  uses `List.getD` with a zero default.  The claims about index validity are
  stated separately.
-/

namespace MeshObj

abbrev Vec3 := ℚ × ℚ × ℚ

abbrev Vec2 := ℚ × ℚ

abbrev Edge := ℕ × ℕ

abbrev Tri := ℕ × ℕ × ℕ

/-- The canonical unordered key for the endpoint pair of an edge: the
`Edge::operator<` comparator of `meshObject.hpp` compares `(min v1 v2, max v1 v2)`
lexicographically, so edges that agree after this normalisation are the same
map key. -/
def mkEdge (a b : ℕ) : Edge := (min a b, max a b)

/-- Strict order of the `Edge::operator<` comparator on normalised keys:
`if (min1 != min2) return min1 < min2; return max1 < max2;`. -/
def edgeLt (e f : Edge) : Prop := e.1 < f.1 ∨ (e.1 = f.1 ∧ e.2 < f.2)

instance : DecidableRel edgeLt := fun e f => by
  unfold edgeLt; exact inferInstance

/-- Ordered set insertion for edge keys, modelling insertion into
`std::map<Edge, _>` / `std::set<Edge>` (no duplicate keys, iteration in
comparator order). -/
def insEdge (e : Edge) : List Edge → List Edge
  | [] => [e]
  | f :: rest =>
    if e = f then f :: rest
    else if edgeLt e f then e :: f :: rest
    else f :: insEdge e rest

/-- Ordered set insertion for vertex indices, modelling
`std::set<unsigned int>` (ascending iteration, no duplicates). -/
def insNat (x : ℕ) : List ℕ → List ℕ
  | [] => [x]
  | y :: rest =>
    if x = y then y :: rest
    else if x < y then x :: y :: rest
    else y :: insNat x rest

/-- The smooth mesh data that `applyLoopSubdivision` reads and replaces:
`smoothVertices`, `smoothUvs`, `smoothIndices`. -/
structure MeshData where
  vertices : List Vec3
  uvs : List Vec2
  indices : List ℕ

/-- Consecutive index triples, as in the loops `for (i = 0; i < inds.size(); i += 3)`
(an incomplete trailing chunk, out-of-bounds in C++, is dropped). -/
def triples : List ℕ → List Tri
  | a :: b :: c :: rest => (a, b, c) :: triples rest
  | _ => []

/-- The three directed edges of one triangle with their opposite vertices, in
the traversal order of the inner `for (j = 0; j < 3; ++j)` loop; the key is
already normalised as the map comparator would. -/
def triEdgeOcc (t : Tri) : List (Edge × ℕ) :=
  [(mkEdge t.1 t.2.1, t.2.2), (mkEdge t.2.1 t.2.2, t.1), (mkEdge t.2.2 t.1, t.2.1)]

/-- All edge occurrences of the mesh in triangle-loop traversal order (the
adjacency-building loop of `applyLoopSubdivision`). -/
def edgeOcc (m : MeshData) : List (Edge × ℕ) :=
  (triples m.indices).flatMap triEdgeOcc

/-- `edgeFaceCount[e]`: the number of (triangle, side) occurrences of edge `e`. -/
def faceCount (m : MeshData) (e : Edge) : ℕ :=
  ((edgeOcc m).map Prod.fst).count e

/-- `edgeOppositeVertices[e]`: the opposite vertices pushed for edge `e`, in
traversal order. -/
def oppositesOf (m : MeshData) (e : Edge) : List ℕ :=
  (edgeOcc m).filterMap (fun p => if p.1 = e then some p.2 else none)

/-- The key set of `edgeOppositeVertices` (equivalently of `edgeFaceCount`):
the distinct edges, in the iteration order of `std::map<Edge, _>`. -/
def edgeKeys (m : MeshData) : List Edge :=
  (edgeOcc m).foldl (fun acc p => insEdge p.1 acc) []

/-- `boundaryEdges.count e`: edges whose face count is exactly 1. -/
def isBoundaryEdge (m : MeshData) (e : Edge) : Bool :=
  faceCount m e == 1

/-- `boundaryVertices.count v`: `v` is an endpoint of some boundary edge. -/
def isBoundaryVertex (m : MeshData) (v : ℕ) : Bool :=
  (edgeOcc m).any (fun p => faceCount m p.1 == 1 && (v == p.1.1 || v == p.1.2))

/-- `vertexNeighbors[v]`: every directed edge `(v0, v1)` inserts each endpoint
into the other's neighbor set; the result is the ascending iteration order of
`std::set<unsigned int>`. -/
def neighborsOf (m : MeshData) (v : ℕ) : List ℕ :=
  (edgeOcc m).foldl
    (fun acc p =>
      if p.1.1 = v then insNat p.1.2 acc
      else if p.1.2 = v then insNat p.1.1 acc
      else acc) []

/-- The boundary neighbors collected in the boundary-vertex branch of Step 2:
neighbors `n` of `i` such that `{i, n}` is a boundary edge, in neighbor-set
iteration order. -/
def boundaryNeighbors (m : MeshData) (i : ℕ) : List ℕ :=
  (neighborsOf m i).filter (fun n => isBoundaryEdge m (mkEdge i n))

/-- `smoothVertices[i]` (out of range is UB in C++; the model defaults to 0). -/
def posAt (m : MeshData) (i : ℕ) : Vec3 := m.vertices.getD i 0

/-- `smoothUvs[i]`. -/
def uvAt (m : MeshData) (i : ℕ) : Vec2 := m.uvs.getD i 0

/-- The valence-dependent interior weight β of Step 2; `c k` stands for
`cosf(2π/k)`. -/
def betaFor (c : ℕ → ℚ) (k : ℕ) : ℚ :=
  if k = 3 then 3 / 16
  else (1 / (k : ℚ)) * (5 / 8 - (3 / 8 + (1 / 4) * c k) ^ 2)

/-- Step 2 of `applyLoopSubdivision`: the updated position of original vertex
`i` (written into `nextVertices[i]`). -/
def repositionedPos (c : ℕ → ℚ) (m : MeshData) (i : ℕ) : Vec3 :=
  if isBoundaryVertex m i then
    match boundaryNeighbors m i with
    | [n1, n2] =>
        (1 / 8 : ℚ) • posAt m n1 + (6 / 8 : ℚ) • posAt m i + (1 / 8 : ℚ) • posAt m n2
    | _ => posAt m i
  else
    (1 - ((neighborsOf m i).length : ℚ) * betaFor c (neighborsOf m i).length) • posAt m i
      + betaFor c (neighborsOf m i).length • ((neighborsOf m i).map (posAt m)).sum

/-- Step 2 for UVs (the identical weighted formula on `smoothUvs`). -/
def repositionedUv (c : ℕ → ℚ) (m : MeshData) (i : ℕ) : Vec2 :=
  if isBoundaryVertex m i then
    match boundaryNeighbors m i with
    | [n1, n2] =>
        (1 / 8 : ℚ) • uvAt m n1 + (6 / 8 : ℚ) • uvAt m i + (1 / 8 : ℚ) • uvAt m n2
    | _ => uvAt m i
  else
    (1 - ((neighborsOf m i).length : ℚ) * betaFor c (neighborsOf m i).length) • uvAt m i
      + betaFor c (neighborsOf m i).length • ((neighborsOf m i).map (uvAt m)).sum

/-- Step 1 of `applyLoopSubdivision`: the position of the new midpoint vertex
of edge `e` (boundary rule, interior rule, or the non-manifold fallback). -/
def midpointPos (m : MeshData) (e : Edge) : Vec3 :=
  if isBoundaryEdge m e then
    (1 / 2 : ℚ) • (posAt m e.1 + posAt m e.2)
  else if (oppositesOf m e).length = 2 then
    (3 / 8 : ℚ) • (posAt m e.1 + posAt m e.2)
      + (1 / 8 : ℚ) • (posAt m ((oppositesOf m e).getD 0 0) + posAt m ((oppositesOf m e).getD 1 0))
  else
    (1 / 2 : ℚ) • (posAt m e.1 + posAt m e.2)

/-- Step 1 for UVs. -/
def midpointUv (m : MeshData) (e : Edge) : Vec2 :=
  if isBoundaryEdge m e then
    (1 / 2 : ℚ) • (uvAt m e.1 + uvAt m e.2)
  else if (oppositesOf m e).length = 2 then
    (3 / 8 : ℚ) • (uvAt m e.1 + uvAt m e.2)
      + (1 / 8 : ℚ) • (uvAt m ((oppositesOf m e).getD 0 0) + uvAt m ((oppositesOf m e).getD 1 0))
  else
    (1 / 2 : ℚ) • (uvAt m e.1 + uvAt m e.2)

/-- Position of the first occurrence of an edge in a key list (the rank of a
key inside the iteration order of `std::map<Edge, _>`). -/
def idxOf (e : Edge) : List Edge → ℕ
  | [] => 0
  | f :: rest => if f = e then 0 else idxOf e rest + 1

/-- `edgeMidpointIndices[e]`: midpoints are pushed after the
`originalVertexCount` reserved slots, in map iteration order, so edge `e` gets
index `originalVertexCount + position of e in the sorted key list`. -/
def midIndex (m : MeshData) (e : Edge) : ℕ :=
  m.vertices.length + idxOf e (edgeKeys m)

/-- One full `applyLoopSubdivision` pass: repositioned originals at their old
indices, midpoints appended in map order (Steps 1–2), and the four new
triangles per original triangle (Step 3). -/
def subdividePass (c : ℕ → ℚ) (m : MeshData) : MeshData :=
  { vertices :=
      (List.range m.vertices.length).map (repositionedPos c m)
        ++ (edgeKeys m).map (midpointPos m)
  , uvs :=
      (List.range m.vertices.length).map (repositionedUv c m)
        ++ (edgeKeys m).map (midpointUv m)
  , indices :=
      (triples m.indices).flatMap (fun t =>
        [t.1, midIndex m (mkEdge t.1 t.2.1), midIndex m (mkEdge t.2.2 t.1),
         t.2.1, midIndex m (mkEdge t.2.1 t.2.2), midIndex m (mkEdge t.1 t.2.1),
         t.2.2, midIndex m (mkEdge t.2.2 t.1), midIndex m (mkEdge t.2.1 t.2.2),
         midIndex m (mkEdge t.1 t.2.1), midIndex m (mkEdge t.2.1 t.2.2),
         midIndex m (mkEdge t.2.2 t.1)]) }

/-- The number of distinct edges of the mesh, independently of the key-list
construction: the cardinality of the set of normalised endpoint pairs
occurring in the triangle list. -/
def distinctEdgeCount (m : MeshData) : ℕ :=
  ((edgeOcc m).map Prod.fst).toFinset.card

/-- The cross product `glm::cross(a, b)`. -/
def cross3 (a b : Vec3) : Vec3 :=
  ( a.2.1 * b.2.2 - a.2.2 * b.2.1
  , a.2.2 * b.1 - a.1 * b.2.2
  , a.1 * b.2.1 - a.2.1 * b.1 )

/-- The dot product `glm::dot(a, b)`. -/
def dot3 (a b : Vec3) : ℚ :=
  a.1 * b.1 + a.2.1 * b.2.1 + a.2.2 * b.2.2

/-- `glm::normalize v = v / sqrt(dot v v)` with `sq` standing for the float
square root; a zero-length input yields NaN in float arithmetic, modelled as
`none`. -/
def normalizeV (sq : ℚ → ℚ) (v : Vec3) : Option Vec3 :=
  if dot3 v v = 0 then none else some ((1 / sq (dot3 v v)) • v)

/-- Float vector addition with NaN propagation (`none` absorbs). -/
def addO : Option Vec3 → Option Vec3 → Option Vec3
  | some a, some b => some (a + b)
  | _, _ => none

/-- The raw (area-weighted, unnormalised) cross product of the two edge
vectors of a triangle: `cross(v1 - v0, v2 - v0)`. -/
def rawFaceCross (verts : List Vec3) (t : Tri) : Vec3 :=
  cross3 (verts.getD t.2.1 0 - verts.getD t.1 0) (verts.getD t.2.2 0 - verts.getD t.1 0)

/-- `faceNormal = glm::normalize(glm::cross(edge1, edge2))` — the C++ code
normalises the cross product before accumulating it. -/
def faceNormalOf (sq : ℚ → ℚ) (verts : List Vec3) (t : Tri) : Option Vec3 :=
  normalizeV sq (rawFaceCross verts t)

/-- `norms[i] += x` (out-of-range writes, UB in C++, are dropped). -/
def accumAt (x : Option Vec3) (ns : List (Option Vec3)) (i : ℕ) : List (Option Vec3) :=
  ns.set i (addO (ns.getD i none) x)

/-- The three corner indices of a triangle in accumulation order. -/
def corners (t : Tri) : List ℕ := [t.1, t.2.1, t.2.2]

/-- One iteration of the accumulation loop of `calculateNormals`: add the
(normalised) face normal onto the normals of all three corners. -/
def accumTri (sq : ℚ → ℚ) (verts : List Vec3) (ns : List (Option Vec3)) (t : Tri) :
    List (Option Vec3) :=
  (corners t).foldl (accumAt (faceNormalOf sq verts t)) ns

/-- `meshObject::calculateNormals`: initialise all normals to zero, accumulate
the unit face normal of every triangle onto its three corners, then normalise
every vertex normal. -/
def calculateNormals (sq : ℚ → ℚ) (verts : List Vec3) (inds : List ℕ) :
    List (Option Vec3) :=
  (((triples inds).foldl (accumTri sq verts) (List.replicate verts.length (some 0))).map
    (fun n => n.bind (normalizeV sq)))

/-- The normal-recalculation procedure as the spec words it: identical to
`calculateNormals` except that the accumulated face contribution is the
non-unit (area-weighted, unnormalised) cross product itself.  Written from the
spec, for comparison against the source. -/
def calculateNormalsUnnormalized (sq : ℚ → ℚ) (verts : List Vec3) (inds : List ℕ) :
    List (Option Vec3) :=
  (((triples inds).foldl
      (fun ns t => (corners t).foldl (accumAt (some (rawFaceCross verts t))) ns)
      (List.replicate verts.length (some 0))).map
    (fun n => n.bind (normalizeV sq)))

/-- The total face-normal contribution received by vertex `i`: one unit face
normal per (triangle, corner) occurrence of `i`, summed with NaN propagation
from the zero starting value. -/
def vertexAccum (sq : ℚ → ℚ) (verts : List Vec3) (inds : List ℕ) (i : ℕ) :
    Option Vec3 :=
  ((triples inds).flatMap (fun t =>
      (corners t).filterMap (fun v =>
        if v = i then some (faceNormalOf sq verts t) else none))).foldl addO (some 0)

/-- Per-vertex characterisation of normal recalculation: vertex `i` ends with
the normalisation of its total accumulated contribution. -/
def calculateNormalsByVertex (sq : ℚ → ℚ) (verts : List Vec3) (inds : List ℕ) :
    List (Option Vec3) :=
  (List.range verts.length).map (fun i => (vertexAccum sq verts inds i).bind (normalizeV sq))

/-- The mesh data loaded from the OBJ file at construction time (`vertices`,
`uvs`, `normals`, `indices` members of `meshObject`), never mutated
afterwards. -/
structure LoadedMesh where
  vertices : List Vec3
  uvs : List Vec2
  normals : List Vec3
  indices : List ℕ

/-- The subdivision-relevant state of a `meshObject`: the immutable base mesh,
the current smooth mesh with its normals, and the applied level. -/
structure MeshState where
  base : LoadedMesh
  smooth : MeshData
  smoothNormals : List (Option Vec3)
  subdivisionLevel : ℕ

/-- The geometric part of the base mesh. -/
def baseData (b : LoadedMesh) : MeshData :=
  { vertices := b.vertices, uvs := b.uvs, indices := b.indices }

/-- The constructor after a successful load: smooth data initialised to a copy
of the base data, level 0 (the loaded normals are exact float values, hence
`some`). -/
def mkState (b : LoadedMesh) : MeshState :=
  { base := b
  , smooth := baseData b
  , smoothNormals := b.normals.map some
  , subdivisionLevel := 0 }

/-- `meshObject::setSubdivisionLevel`: clamp the target to ≥ 0, return on a
no-op, reset to a copy of the base mesh on a decrease, subdivide up to the
target, and recompute the normals of the final mesh. -/
def setSubdivisionLevel (c : ℕ → ℚ) (sq : ℚ → ℚ) (lvl : ℤ) (s : MeshState) : MeshState :=
  if lvl.toNat = s.subdivisionLevel then s
  else
    let s1 : MeshState :=
      if lvl.toNat < s.subdivisionLevel then
        { s with smooth := baseData s.base
               , smoothNormals := s.base.normals.map some
               , subdivisionLevel := 0 }
      else s
    let newSmooth := (subdividePass c)^[lvl.toNat - s1.subdivisionLevel] s1.smooth
    { s1 with smooth := newSmooth
            , smoothNormals := calculateNormals sq newSmooth.vertices newSmooth.indices
            , subdivisionLevel := lvl.toNat }

/-- A sequence of `setSubdivisionLevel` calls. -/
def runLevels (c : ℕ → ℚ) (sq : ℚ → ℚ) (s : MeshState) (ts : List ℤ) : MeshState :=
  ts.foldl (fun s t => setSubdivisionLevel c sq t s) s

/-- Validity of a mesh: every triangle index addresses a vertex, and the UV
array is index-aligned with the vertex array. -/
def wellFormedMesh (m : MeshData) : Prop :=
  (∀ i ∈ m.indices, i < m.vertices.length) ∧ m.uvs.length = m.vertices.length

instance (m : MeshData) : Decidable (wellFormedMesh m) := by
  unfold wellFormedMesh; exact inferInstance

/-- Validity of a loaded base mesh (same two conditions). -/
def wellFormedRaw (b : LoadedMesh) : Prop :=
  (∀ i ∈ b.indices, i < b.vertices.length) ∧ b.uvs.length = b.vertices.length

instance (b : LoadedMesh) : Decidable (wellFormedRaw b) := by
  unfold wellFormedRaw; exact inferInstance

/-- Modelled from the spec: the OBJ-loading collaborator (`loadOBJ`, declared
in `common/objloader.hpp`, implementation not under `src/`).  Per the spec, a
malformed base mesh — a triangle index out of range or a vertex/uv length
mismatch — fails fast at load time; a well-formed one is returned unchanged. -/
def loadOBJChecked (b : LoadedMesh) : Option LoadedMesh :=
  if wellFormedRaw b then some b else none

/-- The constructor `meshObject(modelPath, texturePath)`: on load failure it
returns without initialising mesh state, so no subdivision-capable object
exists; on success the state is `mkState`. -/
def constructMeshObject (b : LoadedMesh) : Option MeshState :=
  (loadOBJChecked b).map mkState

/-! ### Combinatorial lemmas about the edge-key list -/

theorem edgeLt_trans {a b c : Edge} (h1 : edgeLt a b) (h2 : edgeLt b c) : edgeLt a c := by
  rcases a with ⟨a1, a2⟩; rcases b with ⟨b1, b2⟩; rcases c with ⟨c1, c2⟩
  simp only [edgeLt] at h1 h2 ⊢; omega

theorem edgeLt_ne {a b : Edge} (h : edgeLt a b) : a ≠ b := by
  rcases a with ⟨a1, a2⟩; rcases b with ⟨b1, b2⟩
  simp only [edgeLt, Prod.ext_iff, ne_eq] at h ⊢; omega

theorem edgeLt_total {a b : Edge} (hne : ¬a = b) (hlt : ¬edgeLt a b) : edgeLt b a := by
  rcases a with ⟨a1, a2⟩; rcases b with ⟨b1, b2⟩
  simp only [edgeLt, Prod.ext_iff, not_and, not_or, not_lt] at hne hlt ⊢; omega

theorem mem_insEdge {a e : Edge} {l : List Edge} :
    a ∈ insEdge e l ↔ a = e ∨ a ∈ l := by
  induction l with
  | nil => simp [insEdge]
  | cons f rest ih =>
    simp only [insEdge]
    split_ifs with h1 h2
    · subst h1; simp only [List.mem_cons]; tauto
    · simp only [List.mem_cons]
    · simp only [List.mem_cons, ih]; tauto

theorem pairwise_insEdge {e : Edge} {l : List Edge} (h : l.Pairwise edgeLt) :
    (insEdge e l).Pairwise edgeLt := by
  induction l with
  | nil => simp [insEdge]
  | cons f rest ih =>
    rw [List.pairwise_cons] at h
    simp only [insEdge]
    split_ifs with h1 h2
    · exact List.pairwise_cons.mpr h
    · refine List.pairwise_cons.mpr ⟨?_, List.pairwise_cons.mpr h⟩
      intro x hx
      rcases List.mem_cons.mp hx with rfl | hx
      · exact h2
      · exact edgeLt_trans h2 (h.1 x hx)
    · refine List.pairwise_cons.mpr ⟨?_, ih h.2⟩
      intro x hx
      rcases mem_insEdge.mp hx with rfl | hx
      · exact edgeLt_total h1 h2
      · exact h.1 x hx

theorem edgeKeys_go_mem (occ : List (Edge × ℕ)) (acc : List Edge) (a : Edge) :
    a ∈ occ.foldl (fun acc p => insEdge p.1 acc) acc ↔ a ∈ acc ∨ a ∈ occ.map Prod.fst := by
  induction occ generalizing acc with
  | nil => simp
  | cons p rest ih =>
    rw [List.foldl_cons, ih (insEdge p.1 acc)]
    simp only [List.map_cons, List.mem_cons, mem_insEdge]
    tauto

theorem edgeKeys_go_pairwise (occ : List (Edge × ℕ)) (acc : List Edge)
    (h : acc.Pairwise edgeLt) :
    (occ.foldl (fun acc p => insEdge p.1 acc) acc).Pairwise edgeLt := by
  induction occ generalizing acc with
  | nil => exact h
  | cons p rest ih => exact ih _ (pairwise_insEdge h)

theorem mem_edgeKeys {m : MeshData} {a : Edge} :
    a ∈ edgeKeys m ↔ a ∈ (edgeOcc m).map Prod.fst := by
  have := edgeKeys_go_mem (edgeOcc m) [] a
  simpa [edgeKeys] using this

theorem edgeKeys_pairwise (m : MeshData) : (edgeKeys m).Pairwise edgeLt :=
  edgeKeys_go_pairwise (edgeOcc m) [] (by simp)

theorem edgeKeys_nodup (m : MeshData) : (edgeKeys m).Nodup :=
  (edgeKeys_pairwise m).imp (fun h => edgeLt_ne h)

theorem edgeKeys_length (m : MeshData) :
    (edgeKeys m).length = distinctEdgeCount m := by
  rw [distinctEdgeCount, ← List.toFinset_card_of_nodup (edgeKeys_nodup m)]
  congr 1
  ext a
  simp [List.mem_toFinset, mem_edgeKeys]

/-! ### Triangle-list lemmas -/

theorem triples_length_of_mod :
    ∀ (l : List ℕ), l.length % 3 = 0 → 3 * (triples l).length = l.length
  | [], _ => rfl
  | [a], h => by simp at h
  | [a, b], h => by simp at h
  | a :: b :: c :: rest, h => by
    have h2 : rest.length % 3 = 0 := by
      simp only [List.length_cons] at h; omega
    have ih := triples_length_of_mod rest h2
    simp only [triples, List.length_cons]; omega

theorem mem_of_mem_triples :
    ∀ {l : List ℕ} {t : Tri}, t ∈ triples l → t.1 ∈ l ∧ t.2.1 ∈ l ∧ t.2.2 ∈ l := by
  intro l
  induction l using triples.induct with
  | case1 a b c rest ih =>
    intro t ht
    rcases List.mem_cons.mp ht with rfl | ht
    · simp
    · have := ih ht
      simp only [List.mem_cons]
      tauto
  | case2 l hl =>
    intro t ht
    simp [triples, hl] at ht

theorem sum_map_const_nat {α : Type} (l : List α) (n : ℕ) :
    (l.map (fun _ => n)).sum = n * l.length := by
  induction l with
  | nil => simp
  | cons a rest ih =>
    simp only [List.map_cons, List.sum_cons, List.length_cons, ih]
    ring

theorem subdividePass_indices_length (c : ℕ → ℚ) (m : MeshData) :
    (subdividePass c m).indices.length = 12 * (triples m.indices).length := by
  rw [subdividePass]
  simp only [List.length_flatMap]
  have : (List.map (List.length ∘ fun t : Tri =>
      [t.1, midIndex m (mkEdge t.1 t.2.1), midIndex m (mkEdge t.2.2 t.1),
       t.2.1, midIndex m (mkEdge t.2.1 t.2.2), midIndex m (mkEdge t.1 t.2.1),
       t.2.2, midIndex m (mkEdge t.2.2 t.1), midIndex m (mkEdge t.2.1 t.2.2),
       midIndex m (mkEdge t.1 t.2.1), midIndex m (mkEdge t.2.1 t.2.2),
       midIndex m (mkEdge t.2.2 t.1)]) (triples m.indices))
      = (triples m.indices).map (fun _ => 12) := by
    apply List.map_congr_left
    intro t _
    rfl
  rw [this, sum_map_const_nat]

theorem subdividePass_vertices_length (c : ℕ → ℚ) (m : MeshData) :
    (subdividePass c m).vertices.length = m.vertices.length + (edgeKeys m).length := by
  simp [subdividePass]

theorem subdividePass_uvs_length (c : ℕ → ℚ) (m : MeshData) :
    (subdividePass c m).uvs.length = m.vertices.length + (edgeKeys m).length := by
  simp [subdividePass]

/-- The three (normalised) edges of any triangle of the mesh are keys of the
edge maps, so every `edgeMidpointIndices.at` lookup of Step 3 succeeds. -/
theorem triangle_edges_mem_keys {m : MeshData} {t : Tri} (ht : t ∈ triples m.indices) :
    mkEdge t.1 t.2.1 ∈ edgeKeys m ∧ mkEdge t.2.1 t.2.2 ∈ edgeKeys m ∧
    mkEdge t.2.2 t.1 ∈ edgeKeys m := by
  refine ⟨?_, ?_, ?_⟩
  · rw [mem_edgeKeys]
    exact List.mem_map.mpr ⟨(mkEdge t.1 t.2.1, t.2.2),
      List.mem_flatMap.mpr ⟨t, ht, by simp [triEdgeOcc]⟩, rfl⟩
  · rw [mem_edgeKeys]
    exact List.mem_map.mpr ⟨(mkEdge t.2.1 t.2.2, t.1),
      List.mem_flatMap.mpr ⟨t, ht, by simp [triEdgeOcc]⟩, rfl⟩
  · rw [mem_edgeKeys]
    exact List.mem_map.mpr ⟨(mkEdge t.2.2 t.1, t.2.1),
      List.mem_flatMap.mpr ⟨t, ht, by simp [triEdgeOcc]⟩, rfl⟩

theorem idxOf_lt_length {e : Edge} : ∀ {l : List Edge}, e ∈ l → idxOf e l < l.length := by
  intro l
  induction l with
  | nil => intro h; simp at h
  | cons f rest ih =>
    intro h
    simp only [idxOf, List.length_cons]
    split_ifs with hf
    · omega
    · have : e ∈ rest := by
        rcases List.mem_cons.mp h with rfl | h2
        · exact absurd rfl hf
        · exact h2
      have := ih this
      omega

theorem getElem_idxOf {e : Edge} : ∀ {l : List Edge} (_he : e ∈ l)
    (h : idxOf e l < l.length), l[idxOf e l] = e := by
  intro l
  induction l with
  | nil => intro he; simp at he
  | cons f rest ih =>
    intro he h
    simp only [idxOf] at h ⊢
    split_ifs with hf
    · simpa using hf
    · have hmem : e ∈ rest := by
        rcases List.mem_cons.mp he with rfl | h2
        · exact absurd rfl hf
        · exact h2
      simp only [List.getElem_cons_succ]
      exact ih hmem (by simpa [idxOf, hf] using h)

theorem midIndex_lt {m : MeshData} {e : Edge} (he : e ∈ edgeKeys m) :
    midIndex m e < m.vertices.length + (edgeKeys m).length := by
  have := idxOf_lt_length he
  simp only [midIndex]
  omega

/-! ### Reading individual entries of the buffers produced by one pass -/

theorem getD_append_map_idx {β : Type} (A : List β) (l : List Edge) (f : Edge → β)
    (d : β) {e : Edge} (he : e ∈ l) :
    (A ++ l.map f).getD (A.length + idxOf e l) d = f e := by
  have hidx := idxOf_lt_length he
  have htot : A.length + idxOf e l < (A ++ l.map f).length := by
    simp only [List.length_append, List.length_map]
    omega
  rw [List.getD_eq_getElem _ _ htot, List.getElem_append_right (Nat.le_add_right _ _)]
  have harith : A.length + idxOf e l - A.length = idxOf e l := by omega
  simp only [harith, List.getElem_map]
  rw [getElem_idxOf he]

theorem getD_append_left_map_range {β : Type} (f : ℕ → β) (B : List β) (d : β)
    {n i : ℕ} (h : i < n) :
    ((List.range n).map f ++ B).getD i d = f i := by
  rw [List.getD_append _ _ _ i (by simpa using h),
    List.getD_eq_getElem _ _ (by simpa using h)]
  simp

/-- Updated original vertices keep their indices: entry `i < V` of the next
vertex buffer is the Step-2 repositioning of vertex `i`. -/
theorem subdivide_pos_orig (c : ℕ → ℚ) (m : MeshData) {i : ℕ}
    (h : i < m.vertices.length) :
    (subdividePass c m).vertices.getD i 0 = repositionedPos c m i :=
  getD_append_left_map_range _ _ _ h

theorem subdivide_uv_orig (c : ℕ → ℚ) (m : MeshData) {i : ℕ}
    (h : i < m.vertices.length) :
    (subdividePass c m).uvs.getD i 0 = repositionedUv c m i :=
  getD_append_left_map_range _ _ _ h

/-- Entry `midIndex m e` of the next vertex buffer is the Step-1 midpoint
vertex of edge `e`. -/
theorem subdivide_pos_mid (c : ℕ → ℚ) (m : MeshData) {e : Edge}
    (he : e ∈ edgeKeys m) :
    (subdividePass c m).vertices.getD (midIndex m e) 0 = midpointPos m e := by
  have h := getD_append_map_idx ((List.range m.vertices.length).map (repositionedPos c m))
    (edgeKeys m) (midpointPos m) 0 he
  simpa [subdividePass, midIndex] using h

theorem subdivide_uv_mid (c : ℕ → ℚ) (m : MeshData) {e : Edge}
    (he : e ∈ edgeKeys m) :
    (subdividePass c m).uvs.getD (midIndex m e) 0 = midpointUv m e := by
  have h := getD_append_map_idx ((List.range m.vertices.length).map (repositionedUv c m))
    (edgeKeys m) (midpointUv m) 0 he
  simpa [subdividePass, midIndex] using h

/-! ### Validity preservation (shared by C8 and C9) -/

theorem subdividePass_index_bound (c : ℕ → ℚ) (m : MeshData)
    (hv : ∀ i ∈ m.indices, i < m.vertices.length) :
    ∀ j ∈ (subdividePass c m).indices, j < (subdividePass c m).vertices.length := by
  intro j hj
  rw [subdividePass_vertices_length]
  have hj2 := List.mem_flatMap.mp hj
  obtain ⟨t, ht, hmem⟩ := hj2
  have hedges := triangle_edges_mem_keys ht
  have hcorners := mem_of_mem_triples ht
  simp only [List.mem_cons, List.not_mem_nil, or_false] at hmem
  rcases hmem with rfl | rfl | rfl | rfl | rfl | rfl | rfl | rfl | rfl | rfl | rfl | rfl
  · exact lt_of_lt_of_le (hv _ hcorners.1) (Nat.le_add_right _ _)
  · exact midIndex_lt hedges.1
  · exact midIndex_lt hedges.2.2
  · exact lt_of_lt_of_le (hv _ hcorners.2.1) (Nat.le_add_right _ _)
  · exact midIndex_lt hedges.2.1
  · exact midIndex_lt hedges.1
  · exact lt_of_lt_of_le (hv _ hcorners.2.2) (Nat.le_add_right _ _)
  · exact midIndex_lt hedges.2.2
  · exact midIndex_lt hedges.2.1
  · exact midIndex_lt hedges.1
  · exact midIndex_lt hedges.2.1
  · exact midIndex_lt hedges.2.2

theorem subdividePass_wellFormed (c : ℕ → ℚ) (m : MeshData)
    (h : wellFormedMesh m) : wellFormedMesh (subdividePass c m) := by
  refine ⟨subdividePass_index_bound c m h.1, ?_⟩
  rw [subdividePass_uvs_length, subdividePass_vertices_length]

/-! ### Normal-accumulation lemmas -/

theorem addO_assoc (x y z : Option Vec3) : addO (addO x y) z = addO x (addO y z) := by
  cases x <;> cases y <;> cases z <;> simp [addO, add_assoc]

theorem accumAt_length (x : Option Vec3) (ns : List (Option Vec3)) (v : ℕ) :
    (accumAt x ns v).length = ns.length := by
  simp [accumAt]

theorem foldl_accumAt_length (x : Option Vec3) (cs : List ℕ) (ns : List (Option Vec3)) :
    (cs.foldl (accumAt x) ns).length = ns.length := by
  induction cs generalizing ns with
  | nil => rfl
  | cons v cs ih => rw [List.foldl_cons, ih, accumAt_length]

theorem accumTri_length (sq : ℚ → ℚ) (verts : List Vec3) (ns : List (Option Vec3))
    (t : Tri) : (accumTri sq verts ns t).length = ns.length :=
  foldl_accumAt_length _ _ _

theorem foldl_accumTri_length (sq : ℚ → ℚ) (verts : List Vec3) (ts : List Tri)
    (ns : List (Option Vec3)) :
    (ts.foldl (accumTri sq verts) ns).length = ns.length := by
  induction ts generalizing ns with
  | nil => rfl
  | cons t ts ih => rw [List.foldl_cons, ih, accumTri_length]

theorem accumAt_getD (x : Option Vec3) (ns : List (Option Vec3)) (v : ℕ) {i : ℕ}
    (hi : i < ns.length) :
    (accumAt x ns v).getD i none
      = if v = i then addO (ns.getD i none) x else ns.getD i none := by
  by_cases hvi : v = i
  · subst hvi
    rw [if_pos rfl, accumAt,
      List.getD_eq_getElem _ _ (by simpa using hi),
      List.getElem_set_self (by simpa using hi),
      List.getD_eq_getElem _ _ hi]
  · rw [if_neg hvi, accumAt,
      List.getD_eq_getElem _ _ (by simpa using hi),
      List.getElem_set_ne hvi _,
      List.getD_eq_getElem _ _ hi]

theorem foldl_accumAt_getD (x : Option Vec3) :
    ∀ (cs : List ℕ) (ns : List (Option Vec3)) {i : ℕ}, i < ns.length →
      (cs.foldl (accumAt x) ns).getD i none
        = (cs.filterMap (fun v => if v = i then some x else none)).foldl addO
            (ns.getD i none) := by
  intro cs
  induction cs with
  | nil => intro ns i _; rfl
  | cons v cs ih =>
    intro ns i hi
    rw [List.foldl_cons]
    rw [ih (accumAt x ns v) (by rw [accumAt_length]; exact hi)]
    rw [accumAt_getD x ns v hi]
    by_cases hvi : v = i
    · subst hvi
      rw [if_pos rfl, List.filterMap_cons]
      simp
    · rw [if_neg hvi, List.filterMap_cons]
      simp only [if_neg hvi]

/-- The contribution list a single triangle sends to vertex `i`: one copy of
its (unit) face normal per corner equal to `i`. -/
def triContrib (sq : ℚ → ℚ) (verts : List Vec3) (t : Tri) (i : ℕ) :
    List (Option Vec3) :=
  (corners t).filterMap (fun v => if v = i then some (faceNormalOf sq verts t) else none)

theorem accumTri_getD (sq : ℚ → ℚ) (verts : List Vec3) (ns : List (Option Vec3))
    (t : Tri) {i : ℕ} (hi : i < ns.length) :
    (accumTri sq verts ns t).getD i none
      = (triContrib sq verts t i).foldl addO (ns.getD i none) :=
  foldl_accumAt_getD _ _ _ hi

theorem foldl_accumTri_getD (sq : ℚ → ℚ) (verts : List Vec3) :
    ∀ (ts : List Tri) (ns : List (Option Vec3)) {i : ℕ}, i < ns.length →
      (ts.foldl (accumTri sq verts) ns).getD i none
        = (ts.flatMap (fun t => triContrib sq verts t i)).foldl addO
            (ns.getD i none) := by
  intro ts
  induction ts with
  | nil => intro ns i _; rfl
  | cons t ts ih =>
    intro ns i hi
    rw [List.foldl_cons]
    rw [ih (accumTri sq verts ns t) (by rw [accumTri_length]; exact hi)]
    rw [accumTri_getD sq verts ns t hi]
    rw [List.flatMap_cons, List.foldl_append]

theorem getD_replicate_some_zero {n i : ℕ} (h : i < n) :
    (List.replicate n (some (0 : Vec3))).getD i none = some 0 := by
  rw [List.getD_eq_getElem _ _ (by simpa using h), List.getElem_replicate]

/-! ### Level-controller lemmas -/

theorem setLevel_of_eq (c : ℕ → ℚ) (sq : ℚ → ℚ) {t : ℤ} {s : MeshState}
    (h : t.toNat = s.subdivisionLevel) :
    setSubdivisionLevel c sq t s = s := by
  simp [setSubdivisionLevel, h]

theorem setLevel_of_lt (c : ℕ → ℚ) (sq : ℚ → ℚ) {t : ℤ} {s : MeshState}
    (h1 : t.toNat ≠ s.subdivisionLevel) (h2 : t.toNat < s.subdivisionLevel) :
    setSubdivisionLevel c sq t s =
      { base := s.base
      , smooth := (subdividePass c)^[t.toNat] (baseData s.base)
      , smoothNormals := calculateNormals sq
          ((subdividePass c)^[t.toNat] (baseData s.base)).vertices
          ((subdividePass c)^[t.toNat] (baseData s.base)).indices
      , subdivisionLevel := t.toNat } := by
  simp [setSubdivisionLevel, h1, h2]

theorem setLevel_of_gt (c : ℕ → ℚ) (sq : ℚ → ℚ) {t : ℤ} {s : MeshState}
    (h1 : t.toNat ≠ s.subdivisionLevel) (h2 : ¬ t.toNat < s.subdivisionLevel) :
    setSubdivisionLevel c sq t s =
      { base := s.base
      , smooth := (subdividePass c)^[t.toNat - s.subdivisionLevel] s.smooth
      , smoothNormals := calculateNormals sq
          ((subdividePass c)^[t.toNat - s.subdivisionLevel] s.smooth).vertices
          ((subdividePass c)^[t.toNat - s.subdivisionLevel] s.smooth).indices
      , subdivisionLevel := t.toNat } := by
  simp [setSubdivisionLevel, h1, h2]

theorem setLevel_base (c : ℕ → ℚ) (sq : ℚ → ℚ) (t : ℤ) (s : MeshState) :
    (setSubdivisionLevel c sq t s).base = s.base := by
  by_cases h1 : t.toNat = s.subdivisionLevel
  · rw [setLevel_of_eq c sq h1]
  · by_cases h2 : t.toNat < s.subdivisionLevel
    · rw [setLevel_of_lt c sq h1 h2]
    · rw [setLevel_of_gt c sq h1 h2]

/-- The invariant behind the level-0 restore: the base mesh is never mutated,
and whenever the applied level is 0 the smooth mesh is (a copy of) the base
mesh. -/
def levelZeroInv (b : LoadedMesh) (s : MeshState) : Prop :=
  s.base = b ∧ (s.subdivisionLevel = 0 → s.smooth = baseData b)

theorem levelZeroInv_mkState (b : LoadedMesh) : levelZeroInv b (mkState b) :=
  ⟨rfl, fun _ => rfl⟩

theorem levelZeroInv_step (c : ℕ → ℚ) (sq : ℚ → ℚ) (t : ℤ) {b : LoadedMesh}
    {s : MeshState} (h : levelZeroInv b s) :
    levelZeroInv b (setSubdivisionLevel c sq t s) := by
  obtain ⟨hb, h0⟩ := h
  by_cases h1 : t.toNat = s.subdivisionLevel
  · rw [setLevel_of_eq c sq h1]; exact ⟨hb, h0⟩
  · by_cases h2 : t.toNat < s.subdivisionLevel
    · rw [setLevel_of_lt c sq h1 h2]
      refine ⟨hb, fun hz => ?_⟩
      have hz2 : t.toNat = 0 := hz
      rw [hz2, Function.iterate_zero_apply, hb]
    · rw [setLevel_of_gt c sq h1 h2]
      refine ⟨hb, fun hz => ?_⟩
      have hz2 : t.toNat = 0 := hz
      omega

theorem levelZeroInv_runLevels (c : ℕ → ℚ) (sq : ℚ → ℚ) {b : LoadedMesh}
    (ts : List ℤ) {s : MeshState} (h : levelZeroInv b s) :
    levelZeroInv b (runLevels c sq s ts) := by
  induction ts generalizing s with
  | nil => exact h
  | cons t rest ih => exact ih (levelZeroInv_step c sq t h)

theorem wellFormedMesh_baseData {b : LoadedMesh} (h : wellFormedRaw b) :
    wellFormedMesh (baseData b) := h

theorem wellFormed_iterate (c : ℕ → ℚ) (k : ℕ) {m : MeshData}
    (h : wellFormedMesh m) : wellFormedMesh ((subdividePass c)^[k] m) := by
  induction k generalizing m with
  | zero => exact h
  | succ k ih =>
    rw [Function.iterate_succ_apply]
    exact ih (subdividePass_wellFormed c m h)

/-- The validity invariant on the machine state: base and smooth mesh both
well-formed. -/
def wfInv (s : MeshState) : Prop :=
  wellFormedMesh (baseData s.base) ∧ wellFormedMesh s.smooth

theorem wfInv_step (c : ℕ → ℚ) (sq : ℚ → ℚ) (t : ℤ) {s : MeshState}
    (h : wfInv s) : wfInv (setSubdivisionLevel c sq t s) := by
  obtain ⟨hb, hs⟩ := h
  by_cases h1 : t.toNat = s.subdivisionLevel
  · rw [setLevel_of_eq c sq h1]; exact ⟨hb, hs⟩
  · by_cases h2 : t.toNat < s.subdivisionLevel
    · rw [setLevel_of_lt c sq h1 h2]
      exact ⟨hb, wellFormed_iterate c _ hb⟩
    · rw [setLevel_of_gt c sq h1 h2]
      exact ⟨hb, wellFormed_iterate c _ hs⟩

theorem wfInv_runLevels (c : ℕ → ℚ) (sq : ℚ → ℚ) (ts : List ℤ) {s : MeshState}
    (h : wfInv s) : wfInv (runLevels c sq s ts) := by
  induction ts generalizing s with
  | nil => exact h
  | cons t rest ih => exact ih (wfInv_step c sq t h)

/-! ### Concrete meshes used by witnesses and counterexamples -/

/-- A regular tetrahedron: closed manifold, 4 vertices, 4 triangles, 6 edges,
every vertex interior of valence 3. -/
def tetraMeshW : MeshData :=
  { vertices := [(0,0,0), (1,0,0), (0,1,0), (0,0,1)]
  , uvs := [(0,0), (1,0), (0,1), (1,1)]
  , indices := [0,1,2, 0,3,1, 0,2,3, 1,3,2] }

/-- An octahedron: closed manifold, 6 vertices, 8 triangles, 12 edges, every
vertex interior of valence 4. -/
def octaMeshW : MeshData :=
  { vertices := [(1,0,0), (-1,0,0), (0,1,0), (0,-1,0), (0,0,1), (0,0,-1)]
  , uvs := [(0,0), (1,0), (0,1), (1,1), (0,2), (1,2)]
  , indices := [0,2,4, 2,1,4, 1,3,4, 3,0,4, 2,0,5, 1,2,5, 3,1,5, 0,3,5] }

/-- A bowtie of two triangles sharing only vertex 0: vertex 1 is a boundary
vertex with exactly 2 boundary neighbors, vertex 0 a boundary vertex with 4
boundary neighbors. -/
def bowtieMeshW : MeshData :=
  { vertices := [(0,0,0), (1,0,0), (0,1,0), (-1,0,0), (0,-1,0)]
  , uvs := [(0,0), (1,0), (0,1), (2,0), (0,2)]
  , indices := [0,1,2, 0,3,4] }

/-- A single triangle: every edge is a boundary edge. -/
def oneTriMeshW : MeshData :=
  { vertices := [(0,0,0), (2,0,0), (0,2,0)]
  , uvs := [(0,0), (1,0), (0,1)]
  , indices := [0,1,2] }

/-- A quad split along a diagonal: the diagonal `{0,2}` is the only interior
edge (2 opposite vertices), the 4 perimeter edges are boundary. -/
def quadMeshW : MeshData :=
  { vertices := [(0,0,0), (2,0,0), (2,2,0), (0,2,0)]
  , uvs := [(0,0), (1,0), (1,1), (0,1)]
  , indices := [0,1,2, 0,2,3] }

/-- A non-manifold fan: edge `{0,1}` belongs to 3 triangles, so it has 3
opposite vertices and face count 3. -/
def nonManifoldMeshW : MeshData :=
  { vertices := [(0,0,0), (1,0,0), (0,1,0), (0,0,1), (0,-1,0)]
  , uvs := [(0,0), (1,0), (0,1), (1,1), (0,2)]
  , indices := [0,1,2, 1,0,3, 0,1,4] }

/-- A loaded base mesh: one triangle in the `z = 0` plane whose OBJ file
carries the (non-unit, hence certainly not recomputed) normal `(0,0,5)` at
every vertex. -/
def objLoadedW : LoadedMesh :=
  { vertices := [(0,0,0), (1,0,0), (0,1,0)]
  , uvs := [(0,0), (1,0), (0,1)]
  , normals := [(0,0,5), (0,0,5), (0,0,5)]
  , indices := [0,1,2] }

/-- A malformed loaded mesh: index 5 is out of range of the single-vertex
array. -/
def badLoadedW : LoadedMesh :=
  { vertices := [(0,0,0)]
  , uvs := [(0,0)]
  , normals := [(0,0,1)]
  , indices := [0, 0, 5] }

/-- A concrete square-root oracle: every radicand reached by the concrete
normal computations below is a perfect square of a rational, and the
counterexamples state the defining equations `sqrtDemo x * sqrtDemo x = x`
they rely on, so `sqrtDemo` agrees with the float square root there. -/
def sqrtDemo (q : ℚ) : ℚ :=
  if q = 1 then 1
  else if q = 400 then 20
  else if q = 3025 then 55
  else if q = 2809 then 53
  else if q = 36/25 then 6/5
  else 0

/-! ### Claim theorems -/

/-- C1: for a triangle mesh (index count a multiple of 3) with `V` vertices,
`T` triangles and `E` distinct edges, one application of the subdivision pass
produces exactly `4·T` triangles (`4·` the index count) and exactly `V + E`
vertices, with the `E` new midpoint vertices appended after the `V`
repositioned original vertices.  This holds for every mesh, manifold or not. -/
theorem C1_pass_counts (c : ℕ → ℚ) (m : MeshData)
    (h3 : m.indices.length % 3 = 0) :
    (subdividePass c m).vertices.length = m.vertices.length + distinctEdgeCount m ∧
    (subdividePass c m).indices.length = 4 * m.indices.length ∧
    (subdividePass c m).vertices.take m.vertices.length
      = (List.range m.vertices.length).map (repositionedPos c m) ∧
    (subdividePass c m).vertices.drop m.vertices.length
      = (edgeKeys m).map (midpointPos m) := by
  refine ⟨?_, ?_, ?_, ?_⟩
  · rw [subdividePass_vertices_length, edgeKeys_length]
  · have h12 := subdividePass_indices_length c m
    have hT := triples_length_of_mod m.indices h3
    omega
  · exact List.take_left' (by simp)
  · exact List.drop_left' (by simp)

/-- C1 witness: a tetrahedron (4 vertices, 4 triangles, 6 distinct edges)
subdivides to 4 + 6 = 10 vertices and 4·12 = 48 indices. -/
theorem C1_pass_counts_witness :
    tetraMeshW.indices.length % 3 = 0 ∧
    (subdividePass (fun _ => 0) tetraMeshW).vertices.length
      = tetraMeshW.vertices.length + distinctEdgeCount tetraMeshW :=
  ⟨by decide, (C1_pass_counts (fun _ => 0) tetraMeshW (by decide)).1⟩

/-- C9: if every index of the mesh is in range of the vertex array and the
vertex and uv arrays have equal length, then after one subdivision pass every
new index is in range of the new vertex array, the new index count is a
multiple of 3, the new vertex and uv arrays again have equal length, and every
midpoint-map lookup performed during retessellation succeeds (the three edges
of every triangle are keys of the midpoint map). -/
theorem C9_pass_invariant (c : ℕ → ℚ) (m : MeshData)
    (hv : ∀ i ∈ m.indices, i < m.vertices.length)
    (hu : m.uvs.length = m.vertices.length) :
    (∀ j ∈ (subdividePass c m).indices, j < (subdividePass c m).vertices.length) ∧
    (subdividePass c m).indices.length % 3 = 0 ∧
    (subdividePass c m).uvs.length = (subdividePass c m).vertices.length ∧
    (∀ t ∈ triples m.indices,
      mkEdge t.1 t.2.1 ∈ edgeKeys m ∧ mkEdge t.2.1 t.2.2 ∈ edgeKeys m ∧
      mkEdge t.2.2 t.1 ∈ edgeKeys m) := by
  refine ⟨subdividePass_index_bound c m hv, ?_, ?_, ?_⟩
  · rw [subdividePass_indices_length]; omega
  · exact (subdividePass_wellFormed c m ⟨hv, hu⟩).2
  · intro t ht; exact triangle_edges_mem_keys ht

/-- C9 witness: the tetrahedron satisfies the preconditions, hence the
invariant after one pass. -/
theorem C9_pass_invariant_witness :
    (∀ i ∈ tetraMeshW.indices, i < tetraMeshW.vertices.length) ∧
    (∀ j ∈ (subdividePass (fun _ => 0) tetraMeshW).indices,
      j < (subdividePass (fun _ => 0) tetraMeshW).vertices.length) :=
  ⟨by decide, (C9_pass_invariant (fun _ => 0) tetraMeshW (by decide) (by decide)).1⟩

/-- C2: in the vertex repositioning pass (with `c k` standing for
`cosf(2π/k)`), for every existing vertex `i`: a boundary vertex with exactly
2 boundary neighbors `n1, n2` gets `(1/8)P(n1) + (6/8)P(i) + (1/8)P(n2)` for
position and UV alike; a boundary vertex with a boundary-neighbor count other
than 2 keeps its position and UV; an interior vertex of valence `k` gets
`(1 − k·β)P(i) + β·ΣP(n)` with `β = 3/16` for `k = 3` and
`β = (1/k)(5/8 − (3/8 + (1/4)cos(2π/k))²)` for `k > 3` — all at the vertex's
own index in the next buffers. -/
theorem C2_reposition_rules (c : ℕ → ℚ) (m : MeshData) (i : ℕ)
    (hi : i < m.vertices.length) :
    (isBoundaryVertex m i = true →
      (∀ n1 n2, boundaryNeighbors m i = [n1, n2] →
        (subdividePass c m).vertices.getD i 0
          = (1/8 : ℚ) • posAt m n1 + (6/8 : ℚ) • posAt m i + (1/8 : ℚ) • posAt m n2 ∧
        (subdividePass c m).uvs.getD i 0
          = (1/8 : ℚ) • uvAt m n1 + (6/8 : ℚ) • uvAt m i + (1/8 : ℚ) • uvAt m n2) ∧
      ((boundaryNeighbors m i).length ≠ 2 →
        (subdividePass c m).vertices.getD i 0 = posAt m i ∧
        (subdividePass c m).uvs.getD i 0 = uvAt m i)) ∧
    (isBoundaryVertex m i = false →
      ((neighborsOf m i).length = 3 →
        (subdividePass c m).vertices.getD i 0
          = (1 - 3 * (3/16 : ℚ)) • posAt m i
            + (3/16 : ℚ) • ((neighborsOf m i).map (posAt m)).sum ∧
        (subdividePass c m).uvs.getD i 0
          = (1 - 3 * (3/16 : ℚ)) • uvAt m i
            + (3/16 : ℚ) • ((neighborsOf m i).map (uvAt m)).sum) ∧
      (3 < (neighborsOf m i).length →
        (subdividePass c m).vertices.getD i 0
          = (1 - ((neighborsOf m i).length : ℚ)
                * ((1 / ((neighborsOf m i).length : ℚ))
                  * (5/8 - (3/8 + (1/4) * c (neighborsOf m i).length) ^ 2))) • posAt m i
            + ((1 / ((neighborsOf m i).length : ℚ))
                * (5/8 - (3/8 + (1/4) * c (neighborsOf m i).length) ^ 2))
              • ((neighborsOf m i).map (posAt m)).sum ∧
        (subdividePass c m).uvs.getD i 0
          = (1 - ((neighborsOf m i).length : ℚ)
                * ((1 / ((neighborsOf m i).length : ℚ))
                  * (5/8 - (3/8 + (1/4) * c (neighborsOf m i).length) ^ 2))) • uvAt m i
            + ((1 / ((neighborsOf m i).length : ℚ))
                * (5/8 - (3/8 + (1/4) * c (neighborsOf m i).length) ^ 2))
              • ((neighborsOf m i).map (uvAt m)).sum)) := by
  rw [subdivide_pos_orig c m hi, subdivide_uv_orig c m hi]
  refine ⟨fun hb => ⟨fun n1 n2 hbn => ?_, fun hlen => ?_⟩,
    fun hb => ⟨fun hk => ?_, fun hk => ?_⟩⟩
  · constructor
    · simp [repositionedPos, hb, hbn]
    · simp [repositionedUv, hb, hbn]
  · rcases h : boundaryNeighbors m i with _ | ⟨a, _ | ⟨b, _ | ⟨d, rest⟩⟩⟩
    · exact ⟨by simp [repositionedPos, hb, h], by simp [repositionedUv, hb, h]⟩
    · exact ⟨by simp [repositionedPos, hb, h], by simp [repositionedUv, hb, h]⟩
    · exact absurd (by rw [h]; rfl) hlen
    · exact ⟨by simp [repositionedPos, hb, h], by simp [repositionedUv, hb, h]⟩
  · constructor
    · simp [repositionedPos, hb, hk, betaFor]
    · simp [repositionedUv, hb, hk, betaFor]
  · have hk3 : (neighborsOf m i).length ≠ 3 := by omega
    constructor
    · simp [repositionedPos, hb, betaFor, hk3]
    · simp [repositionedUv, hb, betaFor, hk3]

/-- C2 witness: all four cases on concrete meshes — vertex 1 of the bowtie
(boundary, 2 boundary neighbors 0 and 2), vertex 0 of the bowtie (boundary, 4
boundary neighbors, left unchanged), vertex 0 of the tetrahedron (interior,
valence 3) and vertex 0 of the octahedron (interior, valence 4). -/
theorem C2_reposition_rules_witness :
    ((subdividePass (fun _ => 0) bowtieMeshW).vertices.getD 1 0
        = (1/8 : ℚ) • posAt bowtieMeshW 0 + (6/8 : ℚ) • posAt bowtieMeshW 1
          + (1/8 : ℚ) • posAt bowtieMeshW 2 ∧
      (subdividePass (fun _ => 0) bowtieMeshW).uvs.getD 1 0
        = (1/8 : ℚ) • uvAt bowtieMeshW 0 + (6/8 : ℚ) • uvAt bowtieMeshW 1
          + (1/8 : ℚ) • uvAt bowtieMeshW 2) ∧
    ((subdividePass (fun _ => 0) bowtieMeshW).vertices.getD 0 0 = posAt bowtieMeshW 0 ∧
      (subdividePass (fun _ => 0) bowtieMeshW).uvs.getD 0 0 = uvAt bowtieMeshW 0) ∧
    ((subdividePass (fun _ => 0) tetraMeshW).vertices.getD 0 0
        = (1 - 3 * (3/16 : ℚ)) • posAt tetraMeshW 0
          + (3/16 : ℚ) • ((neighborsOf tetraMeshW 0).map (posAt tetraMeshW)).sum ∧
      (subdividePass (fun _ => 0) tetraMeshW).uvs.getD 0 0
        = (1 - 3 * (3/16 : ℚ)) • uvAt tetraMeshW 0
          + (3/16 : ℚ) • ((neighborsOf tetraMeshW 0).map (uvAt tetraMeshW)).sum) ∧
    (3 < (neighborsOf octaMeshW 0).length ∧
      (subdividePass (fun _ => 0) octaMeshW).vertices.getD 0 0
        = (1 - ((neighborsOf octaMeshW 0).length : ℚ)
              * ((1 / ((neighborsOf octaMeshW 0).length : ℚ))
                * (5/8 - (3/8 + (1/4) * (fun _ => (0:ℚ)) (neighborsOf octaMeshW 0).length) ^ 2)))
            • posAt octaMeshW 0
          + ((1 / ((neighborsOf octaMeshW 0).length : ℚ))
              * (5/8 - (3/8 + (1/4) * (fun _ => (0:ℚ)) (neighborsOf octaMeshW 0).length) ^ 2))
            • ((neighborsOf octaMeshW 0).map (posAt octaMeshW)).sum) :=
  ⟨((C2_reposition_rules (fun _ => 0) bowtieMeshW 1 (by decide)).1 (by decide)).1 0 2 (by decide),
   ((C2_reposition_rules (fun _ => 0) bowtieMeshW 0 (by decide)).1 (by decide)).2 (by decide),
   ((C2_reposition_rules (fun _ => 0) tetraMeshW 0 (by decide)).2 (by decide)).1 (by decide),
   by decide,
   (((C2_reposition_rules (fun _ => 0) octaMeshW 0 (by decide)).2 (by decide)).2 (by decide)).1⟩

/-- C3: in the edge-midpoint insertion pass, the new vertices are exactly one
per distinct edge (the midpoint image of the duplicate-free key list, appended
after the originals), and the midpoint of edge `{v0,v1}` at its assigned index
follows the boundary rule for face count 1, the interior rule when there are
exactly 2 opposite vertices, and the boundary/midpoint fallback otherwise. -/
theorem C3_midpoint_rules (c : ℕ → ℚ) (m : MeshData) (e : Edge)
    (he : e ∈ edgeKeys m) :
    (subdividePass c m).vertices.drop m.vertices.length
      = (edgeKeys m).map (midpointPos m) ∧
    (edgeKeys m).Nodup ∧
    (faceCount m e = 1 →
      (subdividePass c m).vertices.getD (midIndex m e) 0
        = (1/2 : ℚ) • (posAt m e.1 + posAt m e.2) ∧
      (subdividePass c m).uvs.getD (midIndex m e) 0
        = (1/2 : ℚ) • (uvAt m e.1 + uvAt m e.2)) ∧
    (faceCount m e ≠ 1 →
      (∀ o1 o2, oppositesOf m e = [o1, o2] →
        (subdividePass c m).vertices.getD (midIndex m e) 0
          = (3/8 : ℚ) • (posAt m e.1 + posAt m e.2)
            + (1/8 : ℚ) • (posAt m o1 + posAt m o2) ∧
        (subdividePass c m).uvs.getD (midIndex m e) 0
          = (3/8 : ℚ) • (uvAt m e.1 + uvAt m e.2)
            + (1/8 : ℚ) • (uvAt m o1 + uvAt m o2)) ∧
      ((oppositesOf m e).length ≠ 2 →
        (subdividePass c m).vertices.getD (midIndex m e) 0
          = (1/2 : ℚ) • (posAt m e.1 + posAt m e.2) ∧
        (subdividePass c m).uvs.getD (midIndex m e) 0
          = (1/2 : ℚ) • (uvAt m e.1 + uvAt m e.2))) := by
  rw [subdivide_pos_mid c m he, subdivide_uv_mid c m he]
  refine ⟨List.drop_left' (by simp), edgeKeys_nodup m,
    fun h1 => ?_, fun h1 => ⟨fun o1 o2 hopp => ?_, fun hlen => ?_⟩⟩
  · constructor
    · simp [midpointPos, isBoundaryEdge, h1]
    · simp [midpointUv, isBoundaryEdge, h1]
  · constructor
    · simp [midpointPos, isBoundaryEdge, h1, hopp]
    · simp [midpointUv, isBoundaryEdge, h1, hopp]
  · constructor
    · simp [midpointPos, isBoundaryEdge, h1, hlen]
    · simp [midpointUv, isBoundaryEdge, h1, hlen]

/-- C3 witness: the three cases on concrete meshes — boundary edge `{0,1}` of
a single triangle, interior diagonal `{0,2}` of the split quad (opposites 1
and 3), and the 3-face edge `{0,1}` of the non-manifold fan (fallback). -/
theorem C3_midpoint_rules_witness :
    ((subdividePass (fun _ => 0) oneTriMeshW).vertices.getD
        (midIndex oneTriMeshW (0,1)) 0
      = (1/2 : ℚ) • (posAt oneTriMeshW 0 + posAt oneTriMeshW 1) ∧
      (subdividePass (fun _ => 0) oneTriMeshW).uvs.getD
        (midIndex oneTriMeshW (0,1)) 0
      = (1/2 : ℚ) • (uvAt oneTriMeshW 0 + uvAt oneTriMeshW 1)) ∧
    ((subdividePass (fun _ => 0) quadMeshW).vertices.getD
        (midIndex quadMeshW (0,2)) 0
      = (3/8 : ℚ) • (posAt quadMeshW 0 + posAt quadMeshW 2)
        + (1/8 : ℚ) • (posAt quadMeshW 1 + posAt quadMeshW 3) ∧
      (subdividePass (fun _ => 0) quadMeshW).uvs.getD
        (midIndex quadMeshW (0,2)) 0
      = (3/8 : ℚ) • (uvAt quadMeshW 0 + uvAt quadMeshW 2)
        + (1/8 : ℚ) • (uvAt quadMeshW 1 + uvAt quadMeshW 3)) ∧
    ((subdividePass (fun _ => 0) nonManifoldMeshW).vertices.getD
        (midIndex nonManifoldMeshW (0,1)) 0
      = (1/2 : ℚ) • (posAt nonManifoldMeshW 0 + posAt nonManifoldMeshW 1) ∧
      (subdividePass (fun _ => 0) nonManifoldMeshW).uvs.getD
        (midIndex nonManifoldMeshW (0,1)) 0
      = (1/2 : ℚ) • (uvAt nonManifoldMeshW 0 + uvAt nonManifoldMeshW 1)) :=
  ⟨(C3_midpoint_rules (fun _ => 0) oneTriMeshW (0,1) (by decide)).2.2.1 (by decide),
   ((C3_midpoint_rules (fun _ => 0) quadMeshW (0,2) (by decide)).2.2.2 (by decide)).1
      1 3 (by decide),
   ((C3_midpoint_rules (fun _ => 0) nonManifoldMeshW (0,1) (by decide)).2.2.2
      (by decide)).2 (by decide)⟩

/-- C6: after any sequence of `setSubdivisionLevel` calls, a final call with
target 0 leaves the smooth vertices, uvs and indices exactly equal to the
stored base mesh, which itself was never mutated. -/
theorem C6_level0_restores_base (c : ℕ → ℚ) (sq : ℚ → ℚ) (b : LoadedMesh)
    (ts : List ℤ) :
    (setSubdivisionLevel c sq 0 (runLevels c sq (mkState b) ts)).smooth.vertices
      = b.vertices ∧
    (setSubdivisionLevel c sq 0 (runLevels c sq (mkState b) ts)).smooth.uvs
      = b.uvs ∧
    (setSubdivisionLevel c sq 0 (runLevels c sq (mkState b) ts)).smooth.indices
      = b.indices ∧
    (runLevels c sq (mkState b) ts).base = b ∧
    (setSubdivisionLevel c sq 0 (runLevels c sq (mkState b) ts)).base = b := by
  obtain ⟨hb, h0⟩ := levelZeroInv_runLevels c sq ts (levelZeroInv_mkState b)
  have hsm : (setSubdivisionLevel c sq 0 (runLevels c sq (mkState b) ts)).smooth
      = baseData b := by
    by_cases h1 : (0 : ℤ).toNat = (runLevels c sq (mkState b) ts).subdivisionLevel
    · rw [setLevel_of_eq c sq h1]
      exact h0 h1.symm
    · have h2 : (0 : ℤ).toNat < (runLevels c sq (mkState b) ts).subdivisionLevel := by
        have : (0 : ℤ).toNat = 0 := rfl
        omega
      rw [setLevel_of_lt c sq h1 h2]
      show (subdividePass c)^[(0 : ℤ).toNat] (baseData _) = baseData b
      rw [show (0 : ℤ).toNat = 0 from rfl, Function.iterate_zero_apply, hb]
  exact ⟨by rw [hsm]; rfl, by rw [hsm]; rfl, by rw [hsm]; rfl, hb,
    by rw [setLevel_base]; exact hb⟩

/-- C7: subdividing up to `n`, down to `m < n`, and back up to `n` produces
the very same state — in particular the same vertex, uv and index buffers —
as subdividing directly from level 0 to `n`: each pass is a pure function of
the previous mesh and a decrease restarts from a copy of the base mesh. -/
theorem C7_no_hysteresis (c : ℕ → ℚ) (sq : ℚ → ℚ) (b : LoadedMesh) (m n : ℕ)
    (h : m < n) :
    setSubdivisionLevel c sq (n : ℤ)
        (setSubdivisionLevel c sq (m : ℤ)
          (setSubdivisionLevel c sq (n : ℤ) (mkState b)))
      = setSubdivisionLevel c sq (n : ℤ) (mkState b) := by
  have htm := Int.toNat_natCast m
  have htn := Int.toNat_natCast n
  have hA : setSubdivisionLevel c sq (n : ℤ) (mkState b)
      = { base := b
        , smooth := (subdividePass c)^[n] (baseData b)
        , smoothNormals := calculateNormals sq
            ((subdividePass c)^[n] (baseData b)).vertices
            ((subdividePass c)^[n] (baseData b)).indices
        , subdivisionLevel := n } := by
    rw [setLevel_of_gt c sq (by simp only [mkState, htn]; omega)
      (by simp only [mkState, htn]; omega)]
    simp only [mkState, htn, Nat.sub_zero]
  have hB : setSubdivisionLevel c sq (m : ℤ)
        (setSubdivisionLevel c sq (n : ℤ) (mkState b))
      = { base := b
        , smooth := (subdividePass c)^[m] (baseData b)
        , smoothNormals := calculateNormals sq
            ((subdividePass c)^[m] (baseData b)).vertices
            ((subdividePass c)^[m] (baseData b)).indices
        , subdivisionLevel := m } := by
    rw [hA]
    rw [setLevel_of_lt c sq (by simp only [htm]; omega) (by simp only [htm]; omega)]
    simp only [htm]
  rw [hB]
  rw [setLevel_of_gt c sq (by simp only [htn]; omega) (by simp only [htn]; omega)]
  rw [hA]
  have hit : (subdividePass c)^[n - m] ((subdividePass c)^[m] (baseData b))
      = (subdividePass c)^[n] (baseData b) := by
    rw [← Function.iterate_add_apply]
    congr 1
    omega
  simp only [htn, hit]

/-- C7 witness: down-up between levels 0 and 1 on the concrete triangle
mesh. -/
theorem C7_no_hysteresis_witness :
    setSubdivisionLevel (fun _ => 0) (fun _ => 0) (1 : ℤ)
        (setSubdivisionLevel (fun _ => 0) (fun _ => 0) (0 : ℤ)
          (setSubdivisionLevel (fun _ => 0) (fun _ => 0) (1 : ℤ) (mkState objLoadedW)))
      = setSubdivisionLevel (fun _ => 0) (fun _ => 0) (1 : ℤ) (mkState objLoadedW) :=
  C7_no_hysteresis (fun _ => 0) (fun _ => 0) objLoadedW 0 1 (by decide)

/-- C8: a malformed base mesh (an out-of-range triangle index or mismatched
vertex/uv array lengths) makes construction fail fast with no subdivision
state at all, while a well-formed base mesh constructs normally and every
state the engine can subsequently reach by any sequence of level changes has
a well-formed smooth mesh — subdivision never runs on invalid data. -/
theorem C8_malformed_fails_fast (b : LoadedMesh) :
    (¬ wellFormedRaw b → constructMeshObject b = none) ∧
    (wellFormedRaw b → constructMeshObject b = some (mkState b) ∧
      ∀ (c : ℕ → ℚ) (sq : ℚ → ℚ) (ts : List ℤ),
        wellFormedMesh (runLevels c sq (mkState b) ts).smooth) := by
  constructor
  · intro hbad
    simp [constructMeshObject, loadOBJChecked, hbad]
  · intro hgood
    refine ⟨by simp [constructMeshObject, loadOBJChecked, hgood], fun c sq ts => ?_⟩
    have hw : wfInv (mkState b) :=
      ⟨wellFormedMesh_baseData hgood, wellFormedMesh_baseData hgood⟩
    exact (wfInv_runLevels c sq ts hw).2

/-- C8 witness: the mesh with out-of-range index 5 is rejected; the
well-formed triangle mesh constructs and stays well-formed across the level
sequence `[2, 1]`. -/
theorem C8_malformed_fails_fast_witness :
    constructMeshObject badLoadedW = none ∧
    constructMeshObject objLoadedW = some (mkState objLoadedW) ∧
    wellFormedMesh (runLevels (fun _ => 0) (fun _ => 0) (mkState objLoadedW) [2, 1]).smooth :=
  ⟨(C8_malformed_fails_fast badLoadedW).1 (by decide),
   ((C8_malformed_fails_fast objLoadedW).2 (by decide)).1,
   ((C8_malformed_fails_fast objLoadedW).2 (by decide)).2 (fun _ => 0) (fun _ => 0) [2, 1]⟩

/-- C10 (amended): after every `setSubdivisionLevel` call whose clamped
target differs from the current level — in particular every decrease back to
level 0 from a higher level — the smooth normals are exactly
`calculateNormals` of the current smooth vertices and indices; the normals
loaded from the OBJ file do not survive such a call, they are recomputed from
the geometry.  (A call whose clamped target equals the current level returns
early and leaves the previous normals in place.) -/
theorem C10_normals_recomputed (c : ℕ → ℚ) (sq : ℚ → ℚ) (t : ℤ) (s : MeshState)
    (h : t.toNat ≠ s.subdivisionLevel) :
    (setSubdivisionLevel c sq t s).smoothNormals
      = calculateNormals sq (setSubdivisionLevel c sq t s).smooth.vertices
          (setSubdivisionLevel c sq t s).smooth.indices := by
  by_cases h2 : t.toNat < s.subdivisionLevel
  · rw [setLevel_of_lt c sq h h2]
  · rw [setLevel_of_gt c sq h h2]

/-- C10 witness: an effective call (target 1 from level 0) on the concrete
triangle mesh recomputes the normals from the subdivided geometry. -/
theorem C10_normals_recomputed_witness :
    (setSubdivisionLevel (fun _ => 0) (fun _ => 0) 1 (mkState objLoadedW)).smoothNormals
      = calculateNormals (fun _ => 0)
          (setSubdivisionLevel (fun _ => 0) (fun _ => 0) 1 (mkState objLoadedW)).smooth.vertices
          (setSubdivisionLevel (fun _ => 0) (fun _ => 0) 1 (mkState objLoadedW)).smooth.indices :=
  C10_normals_recomputed (fun _ => 0) (fun _ => 0) 1 (mkState objLoadedW) (by decide)

/-- C10 counterexample: a completed `setSubdivisionLevel 0` call on a freshly
constructed object (already at level 0) returns early, so the smooth normals
are still the OBJ-loaded `(0,0,5)` vectors and differ from `calculateNormals`
of the current geometry (the unit vectors `(0,0,1)`); the original claim
quantified over every completed call, including this no-op. -/
theorem C10_counterexample :
    sqrtDemo 1 * sqrtDemo 1 = 1 ∧
    (setSubdivisionLevel (fun _ => 0) sqrtDemo 0 (mkState objLoadedW)).smoothNormals
      ≠ calculateNormals sqrtDemo
          (setSubdivisionLevel (fun _ => 0) sqrtDemo 0 (mkState objLoadedW)).smooth.vertices
          (setSubdivisionLevel (fun _ => 0) sqrtDemo 0 (mkState objLoadedW)).smooth.indices := by
  refine ⟨by norm_num [sqrtDemo], ?_⟩
  have hs : setSubdivisionLevel (fun _ => 0) sqrtDemo 0 (mkState objLoadedW)
      = mkState objLoadedW := setLevel_of_eq _ _ rfl
  rw [hs]
  have hR : calculateNormals sqrtDemo (mkState objLoadedW).smooth.vertices
        (mkState objLoadedW).smooth.indices
      = [some (0,0,1), some (0,0,1), some (0,0,1)] := by
    norm_num [calculateNormals, mkState, baseData, objLoadedW, triples, accumTri,
      accumAt, corners, faceNormalOf, rawFaceCross, cross3, dot3, normalizeV, addO,
      List.getD, List.set, List.replicate, sqrtDemo]
  rw [hR]
  have hL : (mkState objLoadedW).smoothNormals
      = [some (0,0,5), some (0,0,5), some (0,0,5)] := rfl
  rw [hL]
  intro hEq
  norm_num [Prod.ext_iff] at hEq

/-- C4 (amended): normal recalculation initialises every vertex normal to
zero, then for every triangle accumulates the unit-normalised cross product of
its two edge vectors (not the raw area-weighted cross product) onto the
normals of all three of the triangle's corners, and finally unit-normalises
every vertex normal: the imperative loop equals the per-vertex sum of unit
face-normal contributions followed by one normalisation. -/
theorem C4_normals_algorithm (sq : ℚ → ℚ) (verts : List Vec3) (inds : List ℕ) :
    calculateNormals sq verts inds = calculateNormalsByVertex sq verts inds := by
  apply List.ext_getElem
  · simp [calculateNormals, calculateNormalsByVertex, foldl_accumTri_length]
  · intro n h1 h2
    have hn : n < verts.length := by
      simpa [calculateNormals, foldl_accumTri_length] using h1
    simp only [calculateNormals, calculateNormalsByVertex]
    rw [List.getElem_map, List.getElem_map, List.getElem_range]
    congr 1
    have hlen : n < ((triples inds).foldl (accumTri sq verts)
        (List.replicate verts.length (some 0))).length := by
      rw [foldl_accumTri_length]; simpa using hn
    rw [← List.getD_eq_getElem _ none hlen]
    rw [foldl_accumTri_getD sq verts (triples inds) _ (by simpa using hn)]
    rw [getD_replicate_some_zero hn]
    rfl

set_option maxHeartbeats 4000000 in
/-- C4 counterexample: on a concrete valid two-triangle mesh whose faces have
different areas (cross-product norms 20 and 55), the code's accumulation of
unit face normals differs from the claim's accumulation of non-unit
(area-weighted) cross products; the stated equations pin `sqrtDemo` to the
true square root on every radicand either computation reaches. -/
theorem C4_counterexample :
    (sqrtDemo 1 * sqrtDemo 1 = 1 ∧ sqrtDemo 400 * sqrtDemo 400 = 400 ∧
     sqrtDemo 3025 * sqrtDemo 3025 = 3025 ∧ sqrtDemo 2809 * sqrtDemo 2809 = 2809 ∧
     sqrtDemo (36/25) * sqrtDemo (36/25) = 36/25 ∧
     0 ≤ sqrtDemo 1 ∧ 0 ≤ sqrtDemo 400 ∧ 0 ≤ sqrtDemo 3025 ∧
     0 ≤ sqrtDemo 2809 ∧ 0 ≤ sqrtDemo (36/25)) ∧
    calculateNormals sqrtDemo
        [(0,0,0), (0,0,1), (16,-12,0), (-44,-33,0)] [0,1,2, 0,1,3]
      ≠ calculateNormalsUnnormalized sqrtDemo
          [(0,0,0), (0,0,1), (16,-12,0), (-44,-33,0)] [0,1,2, 0,1,3] := by
  refine ⟨by norm_num [sqrtDemo], ?_⟩
  have hL : calculateNormals sqrtDemo
        [(0,0,0), (0,0,1), (16,-12,0), (-44,-33,0)] [0,1,2, 0,1,3]
      = [some (1,0,0), some (1,0,0), some (3/5,4/5,0), some (3/5,-4/5,0)] := by
    norm_num [calculateNormals, triples, accumTri, accumAt, corners, faceNormalOf,
      rawFaceCross, cross3, dot3, normalizeV, addO, List.getD, List.set,
      List.replicate, sqrtDemo]
  have hR : calculateNormalsUnnormalized sqrtDemo
        [(0,0,0), (0,0,1), (16,-12,0), (-44,-33,0)] [0,1,2, 0,1,3]
      = [some (45/53,-28/53,0), some (45/53,-28/53,0),
         some (3/5,4/5,0), some (3/5,-4/5,0)] := by
    norm_num [calculateNormalsUnnormalized, triples, accumAt, corners,
      rawFaceCross, cross3, dot3, normalizeV, addO, List.getD, List.set,
      List.replicate, sqrtDemo]
  rw [hL, hR]
  intro hEq
  norm_num [Prod.ext_iff] at hEq

/-- C5: the code does not special-case zero-length cross products.  On a
degenerate triangle (two coincident corners) the face cross product is the
zero vector, `glm::normalize` of it is NaN (modelled `none`), and the NaN
poisons all three vertex normals — the affected normals are not left as zero
vectors. -/
theorem C5_degenerate_nan :
    calculateNormals sqrtDemo [(0,0,0), (0,0,0), (1,0,0)] [0, 1, 2]
      = [none, none, none] := by
  norm_num [calculateNormals, triples, accumTri, accumAt, corners, faceNormalOf,
    rawFaceCross, cross3, dot3, normalizeV, addO, List.getD, List.set,
    List.replicate, sqrtDemo]

end MeshObj

